/-
Verification of the float64 sample/statistics core of a Go metrics library
(`sample_float64.go`), via a shallow embedding into Lean 4.

Modelling conventions:
* Go `float64` values are modelled as `ℚ` (exact arithmetic); `math.Sqrt`
  appears only in `SampleStdDevFloat64`, modelled with `Real.sqrt`.
* `math.Exp` is modelled by an abstract function parameter `rexp : ℚ → ℚ`;
  theorems that need facts about it (e.g. positivity of the rescale factor)
  take them as explicit hypotheses, all satisfied by the real exponential.
* Randomness (`rand.Float64`, `rand.Int63n`) is modelled by oracle arguments
  (`u : ℚ`, `r : ℤ`) supplied to each update.
* Go slices are modelled as `List`; an in-place sort (`sort.Sort`) is
  modelled by returning the final state of the mutated slice alongside the
  function result; a Go `panic` (index out of range on an empty heap,
  mutation of a snapshot) is modelled by an `Option` result being `none`.
* `time.Time` is modelled as `ℚ` (seconds); `t.Sub(s).Seconds()` is `t - s`.
-/
import Mathlib

/-- An individual weighted sample held in the decay heap
(Go struct `expDecaySampleFloat64` with fields `k` priority, `v` value). -/
structure EDItem where
  k : ℚ
  v : ℚ
deriving DecidableEq, Repr, Inhabited

/-- Go `expDecaySampleHeapFloat64.up(j)`: sift the element at index `j`
toward the root while it is strictly smaller than its parent.  In Go the loop
breaks when `i == j`, which happens exactly when `j = 0` (Go computes
`(0-1)/2 = 0` by truncation toward zero). -/
def heapUp (s : List EDItem) (j : Nat) : List EDItem :=
  if j = 0 then s
  else
    let i := (j - 1) / 2
    if (s.getD j default).k < (s.getD i default).k then
      heapUp ((s.set i (s.getD j default)).set j (s.getD i default)) i
    else s
termination_by j
decreasing_by
  exact Nat.lt_of_le_of_lt (Nat.div_le_self _ _) (Nat.sub_lt (Nat.pos_of_ne_zero (by assumption)) Nat.one_pos)

/-- The child index Go's `down` loop selects: the right child `2*i+2` when it
is in range and not greater than the left child (`!(s[j1].k < s[j2].k)`),
otherwise the left child `2*i+1`. -/
def downChild (s : List EDItem) (i n : Nat) : Nat :=
  if 2 * i + 2 < n ∧ ¬ (s.getD (2 * i + 1) default).k < (s.getD (2 * i + 2) default).k
  then 2 * i + 2 else 2 * i + 1

/-- Go `expDecaySampleHeapFloat64.down(i, n)`: sift the element at index `i`
down within the first `n` entries, swapping with the selected child while that
child is strictly smaller. -/
def heapDown (s : List EDItem) (i n : Nat) : List EDItem :=
  if h1 : 2 * i + 1 < n then
    if (s.getD (downChild s i n) default).k < (s.getD i default).k then
      heapDown
        ((s.set i (s.getD (downChild s i n) default)).set (downChild s i n) (s.getD i default))
        (downChild s i n) n
    else s
  else s
termination_by n - i
decreasing_by
  unfold downChild
  split <;> omega

/-- Go `expDecaySampleHeapFloat64.Push(s)`: append at the end, then sift up.
(Go reslices `h.s[0:n+1]`; the sampler never pushes past the backing
capacity because it pops first when full.) -/
def heapPush (s : List EDItem) (x : EDItem) : List EDItem :=
  heapUp (s ++ [x]) s.length

/-- Go `expDecaySampleHeapFloat64.Pop()`: swap the root with the last entry,
sift the new root down within the first `n = len - 1` entries, then detach
and return the last entry (the old root).  On an empty heap Go evaluates
`h.s[0]` with `len = 0` and panics (index out of range); we model that panic
as `none`. -/
def heapPop (s : List EDItem) : Option (EDItem × List EDItem) :=
  match s with
  | [] => none
  | _ :: _ =>
    let n := s.length - 1
    let a := s.getD 0 default
    let b := s.getD n default
    let s2 := heapDown ((s.set 0 b).set n a) 0 n
    some (s2.getD (s2.length - 1) default, s2.take (s2.length - 1))

/-- The min-heap invariant of `expDecaySampleHeapFloat64`: every non-root
entry is at least its parent (parent of `j` is `(j-1)/2`). -/
def IsMinHeap (s : List EDItem) : Prop :=
  ∀ j, j < s.length → 0 < j → (s.getD ((j - 1) / 2) default).k ≤ (s.getD j default).k

instance (s : List EDItem) : Decidable (IsMinHeap s) := by
  unfold IsMinHeap; infer_instance

/-- The heap property restricted to the first `n` entries (the range Go's
`down(i, n)` works in). -/
def HeapUpTo (s : List EDItem) (n : Nat) : Prop :=
  ∀ j, j < n → 0 < j → (s.getD ((j - 1) / 2) default).k ≤ (s.getD j default).k

/-- Heap property on the first `n` entries, except on edges out of `i`. -/
def DownInv1 (s : List EDItem) (i n : Nat) : Prop :=
  ∀ m, m < n → 0 < m → (m - 1) / 2 ≠ i → (s.getD ((m - 1) / 2) default).k ≤ (s.getD m default).k

/-- The parent of `i` already dominates the children of `i`. -/
def DownInv2 (s : List EDItem) (i n : Nat) : Prop :=
  ∀ c, c < n → (c - 1) / 2 = i → 0 < i → (s.getD ((i - 1) / 2) default).k ≤ (s.getD c default).k

/-- Heap property everywhere except on the edge into `j`. -/
def UpInv1 (s : List EDItem) (j : Nat) : Prop :=
  ∀ m, m < s.length → 0 < m → m ≠ j → (s.getD ((m - 1) / 2) default).k ≤ (s.getD m default).k

/-- The parent of `j` already dominates the children of `j`. -/
def UpInv2 (s : List EDItem) (j : Nat) : Prop :=
  ∀ c, c < s.length → (c - 1) / 2 = j → 0 < j → (s.getD ((j - 1) / 2) default).k ≤ (s.getD c default).k

/-- Go `math.MaxFloat64` as an exact rational: `(2 - 2^-52) * 2^1023`. -/
def maxFloat64 : ℚ := 2 ^ 1024 - 2 ^ 971

/-- Go `SampleMaxFloat64`: 0 on an empty slice, else fold starting from
`-math.MaxFloat64`, replacing the accumulator whenever it is smaller. -/
def SampleMaxFloat64 (values : List ℚ) : ℚ :=
  if values.length = 0 then 0
  else values.foldl (fun mx v => if mx < v then v else mx) (-maxFloat64)

/-- Go `SampleMinFloat64`: 0 on an empty slice, else fold starting from
`math.MaxFloat64`, replacing the accumulator whenever it is larger. -/
def SampleMinFloat64 (values : List ℚ) : ℚ :=
  if values.length = 0 then 0
  else values.foldl (fun mn v => if mn > v then v else mn) maxFloat64

/-- Go `SampleSumFloat64`: left fold of addition from 0. -/
def SampleSumFloat64 (values : List ℚ) : ℚ :=
  values.foldl (· + ·) 0

/-- Go `SampleMeanFloat64`: 0 on an empty slice, else sum divided by length. -/
def SampleMeanFloat64 (values : List ℚ) : ℚ :=
  if values.length = 0 then 0
  else SampleSumFloat64 values / (values.length : ℚ)

/-- Go `SampleVarianceFloat64`: population variance, 0 on an empty slice. -/
def SampleVarianceFloat64 (values : List ℚ) : ℚ :=
  if values.length = 0 then 0
  else
    (values.foldl (fun acc v => acc + (v - SampleMeanFloat64 values) * (v - SampleMeanFloat64 values)) 0)
      / (values.length : ℚ)

/-- Go `SampleStdDevFloat64`: square root of the variance. -/
noncomputable def SampleStdDevFloat64 (values : List ℚ) : ℝ :=
  Real.sqrt (SampleVarianceFloat64 values)

/-- Go `SamplePercentilesFloat64`.  The Go function sorts its `values`
argument **in place** (`sort.Sort(values)`); we model that by returning the
pair `(scores, final state of the input slice)`.  `scores` starts as a
zero-filled slice of the same length as `ps` and is only filled in when the
input is non-empty.  In the interpolation branch `pos ≥ 1`, so Go's `int(pos)`
(truncation toward zero) coincides with `⌊pos⌋`. -/
def SamplePercentilesFloat64 (values : List ℚ) (ps : List ℚ) : List ℚ × List ℚ :=
  let size := values.length
  if 0 < size then
    let sorted := values.insertionSort (· ≤ ·)
    (ps.map (fun p =>
      let pos : ℚ := p * ((size : ℚ) + 1)
      if pos < 1 then sorted.getD 0 0
      else if (size : ℚ) ≤ pos then sorted.getD (size - 1) 0
      else
        let lower := sorted.getD ((⌊pos⌋).toNat - 1) 0
        let upper := sorted.getD (⌊pos⌋).toNat 0
        lower + (pos - ⌊pos⌋) * (upper - lower)), sorted)
  else (ps.map (fun _ => 0), values)

/-- Go `SamplePercentileFloat64`: index 0 of the multi-percentile result for
the singleton request list (again returning the mutated input alongside). -/
def SamplePercentileFloat64 (values : List ℚ) (p : ℚ) : ℚ × List ℚ :=
  let r := SamplePercentilesFloat64 values [p]
  (r.1.getD 0 0, r.2)

/-- Go struct `SampleSnapshotFloat64`: a frozen count and value slice. -/
structure SampleSnapshotFloat64 where
  count : ℤ
  values : List ℚ
deriving DecidableEq, Repr

/-- Go `SampleSnapshotFloat64.Clear`: always panics, modelled as `none`. -/
def SampleSnapshotFloat64.Clear (_ : SampleSnapshotFloat64) : Option SampleSnapshotFloat64 :=
  none

/-- Go `SampleSnapshotFloat64.Update`: always panics, modelled as `none`. -/
def SampleSnapshotFloat64.Update (_ : SampleSnapshotFloat64) (_ : ℚ) : Option SampleSnapshotFloat64 :=
  none

/-- Go `SampleSnapshotFloat64.Count`. -/
def SampleSnapshotFloat64.Count (s : SampleSnapshotFloat64) : ℤ := s.count

/-- Go `SampleSnapshotFloat64.Size`. -/
def SampleSnapshotFloat64.Size (s : SampleSnapshotFloat64) : ℕ := s.values.length

/-- Go `SampleSnapshotFloat64.Values` (returns a copy of the backing slice). -/
def SampleSnapshotFloat64.Values (s : SampleSnapshotFloat64) : List ℚ := s.values

/-- Go `SampleSnapshotFloat64.Max`. -/
def SampleSnapshotFloat64.Max (s : SampleSnapshotFloat64) : ℚ := SampleMaxFloat64 s.values

/-- Go `SampleSnapshotFloat64.Min`. -/
def SampleSnapshotFloat64.Min (s : SampleSnapshotFloat64) : ℚ := SampleMinFloat64 s.values

/-- Go `SampleSnapshotFloat64.Mean`. -/
def SampleSnapshotFloat64.Mean (s : SampleSnapshotFloat64) : ℚ := SampleMeanFloat64 s.values

/-- Go `SampleSnapshotFloat64.Sum`. -/
def SampleSnapshotFloat64.Sum (s : SampleSnapshotFloat64) : ℚ := SampleSumFloat64 s.values

/-- Go `SampleSnapshotFloat64.Variance`. -/
def SampleSnapshotFloat64.Variance (s : SampleSnapshotFloat64) : ℚ := SampleVarianceFloat64 s.values

/-- Go `SampleSnapshotFloat64.StdDev`. -/
noncomputable def SampleSnapshotFloat64.StdDev (s : SampleSnapshotFloat64) : ℝ :=
  SampleStdDevFloat64 s.values

/-- Go `SampleSnapshotFloat64.Percentile` (first component: the returned
percentile; the backing slice is sorted in place by the call). -/
def SampleSnapshotFloat64.Percentile (s : SampleSnapshotFloat64) (p : ℚ) : ℚ :=
  (SamplePercentileFloat64 s.values p).1

/-- Go struct `UniformSampleFloat64` (Vitter's Algorithm R). -/
structure UniformSampleFloat64 where
  count : ℤ
  reservoirSize : ℕ
  values : List ℚ
deriving DecidableEq, Repr

/-- Go `NewUniformSampleFloat64`. -/
def NewUniformSampleFloat64 (reservoirSize : ℕ) : UniformSampleFloat64 :=
  { count := 0, reservoirSize := reservoirSize, values := [] }

/-- Go `UniformSampleFloat64.Update`.  `r` is the oracle for
`rand.Int63n(s.count)`, drawn with the already-incremented count; a faithful
draw satisfies `0 ≤ r < s.count + 1`. -/
def UniformSampleFloat64.Update (s : UniformSampleFloat64) (v : ℚ) (r : ℤ) : UniformSampleFloat64 :=
  if s.values.length < s.reservoirSize then
    { s with count := s.count + 1, values := s.values ++ [v] }
  else if r < (s.values.length : ℤ) then
    { s with count := s.count + 1, values := s.values.set r.toNat v }
  else
    { s with count := s.count + 1 }

/-- Go `UniformSampleFloat64.Clear`. -/
def UniformSampleFloat64.Clear (s : UniformSampleFloat64) : UniformSampleFloat64 :=
  { s with count := 0, values := [] }

/-- Go `UniformSampleFloat64.Snapshot`: copies the value slice and count. -/
def UniformSampleFloat64.Snapshot (s : UniformSampleFloat64) : SampleSnapshotFloat64 :=
  { count := s.count, values := s.values }

/-- Go `UniformSampleFloat64.Size`. -/
def UniformSampleFloat64.Size (s : UniformSampleFloat64) : ℕ := s.values.length

/-- `rescaleThreshold` is referenced by the sampler but declared in a part of
the repository that is not among the provided sources.  Modelled from the
spec: "a large fixed duration, e.g. one hour", in seconds. -/
def rescaleThreshold : ℚ := 3600

/-- Go struct `ExpDecaySampleFloat64` (`t0` = epoch start, `t1` = rescale
deadline). -/
structure ExpDecaySampleFloat64 where
  alpha : ℚ
  count : ℤ
  reservoirSize : ℕ
  t0 : ℚ
  t1 : ℚ
  values : List EDItem
deriving DecidableEq, Repr

/-- Go `NewExpDecaySampleFloat64` (the Go constructor reads `time.Now()`,
passed here as `now`). -/
def NewExpDecaySampleFloat64 (reservoirSize : ℕ) (alpha : ℚ) (now : ℚ) : ExpDecaySampleFloat64 :=
  { alpha := alpha, count := 0, reservoirSize := reservoirSize,
    t0 := now, t1 := now + rescaleThreshold, values := [] }

/-- Go `ExpDecaySampleFloat64.update(t, v)`.  `rexp` models `math.Exp`; `u`
is the oracle for `rand.Float64()`.  Steps, in source order: increment count;
if the heap is full, pop (panics — `none` — on an empty heap, i.e. capacity
0); push the new item with priority `exp((t-t0)*alpha)/u`; if `t` is after
the deadline `t1`, rescale: take the heap's items in array order, clear,
set `t0 = t`, `t1 = t0 + rescaleThreshold`, and re-push each item with its
priority multiplied by `exp(-alpha*(newT0 - oldT0))`. -/
def ExpDecaySampleFloat64.update (rexp : ℚ → ℚ) (s : ExpDecaySampleFloat64)
    (t v u : ℚ) : Option ExpDecaySampleFloat64 :=
  match (if s.values.length = s.reservoirSize
         then (heapPop s.values).map (fun pr => pr.2) else some s.values) with
  | none => none
  | some vs =>
    let vs1 := heapPush vs { k := rexp ((t - s.t0) * s.alpha) / u, v := v }
    if s.t1 < t then
      let vs2 := vs1.foldl
        (fun acc it => heapPush acc { k := it.k * rexp (-s.alpha * (t - s.t0)), v := it.v }) []
      some { s with count := s.count + 1, t0 := t, t1 := t + rescaleThreshold, values := vs2 }
    else
      some { s with count := s.count + 1, values := vs1 }

/-- Go `ExpDecaySampleFloat64.Clear` (reads `time.Now()`, passed as `now`). -/
def ExpDecaySampleFloat64.Clear (s : ExpDecaySampleFloat64) (now : ℚ) : ExpDecaySampleFloat64 :=
  { s with count := 0, t0 := now, t1 := now + rescaleThreshold, values := [] }

/-- Go `ExpDecaySampleFloat64.Values`: the retained values, extracted from
the heap items in array order (a fresh slice). -/
def ExpDecaySampleFloat64.Values (s : ExpDecaySampleFloat64) : List ℚ :=
  s.values.map (fun it => it.v)

/-- Go `ExpDecaySampleFloat64.Snapshot`: copies count and the extracted
values. -/
def ExpDecaySampleFloat64.Snapshot (s : ExpDecaySampleFloat64) : SampleSnapshotFloat64 :=
  { count := s.count, values := s.values.map (fun it => it.v) }

/-- Go `ExpDecaySampleFloat64.Size`. -/
def ExpDecaySampleFloat64.Size (s : ExpDecaySampleFloat64) : ℕ := s.values.length

/-- A mutating operation on a live uniform sampler, with its random oracle. -/
inductive UniformOp where
  | update (v : ℚ) (r : ℤ)
  | clear
deriving DecidableEq, Repr

/-- Apply one `UniformOp`. -/
def UniformSampleFloat64.applyOp (s : UniformSampleFloat64) : UniformOp → UniformSampleFloat64
  | .update v r => s.Update v r
  | .clear => s.Clear

/-- Run a sequence of mutating operations on a uniform sampler. -/
def UniformSampleFloat64.run (s : UniformSampleFloat64) (ops : List UniformOp) : UniformSampleFloat64 :=
  ops.foldl UniformSampleFloat64.applyOp s

/-- A consumer-visible operation on a uniform sampler: mutate, or take a
snapshot (which the runner records). -/
inductive UniformSnapOp where
  | update (v : ℚ) (r : ℤ)
  | clear
  | snapshot
deriving DecidableEq, Repr

/-- Run a sequence of operations, recording every snapshot taken, in order. -/
def UniformSampleFloat64.runWithSnaps (s : UniformSampleFloat64) :
    List UniformSnapOp → UniformSampleFloat64 × List SampleSnapshotFloat64
  | [] => (s, [])
  | UniformSnapOp.update v r :: rest => (s.Update v r).runWithSnaps rest
  | UniformSnapOp.clear :: rest => s.Clear.runWithSnaps rest
  | UniformSnapOp.snapshot :: rest =>
    ((s.runWithSnaps rest).1, s.Snapshot :: (s.runWithSnaps rest).2)

/-- Erase the snapshot markers, keeping the mutations. -/
def UniformSnapOp.toOps : List UniformSnapOp → List UniformOp
  | [] => []
  | UniformSnapOp.update v r :: rest => UniformOp.update v r :: UniformSnapOp.toOps rest
  | UniformSnapOp.clear :: rest => UniformOp.clear :: UniformSnapOp.toOps rest
  | UniformSnapOp.snapshot :: rest => UniformSnapOp.toOps rest

/-- A mutating operation on a live decay sampler, with its oracles
(`t` the update timestamp, `u` the uniform draw, `now` the clear time). -/
inductive DecayOp where
  | update (t v u : ℚ)
  | clear (now : ℚ)
deriving DecidableEq, Repr

/-- Apply one `DecayOp` (an update may panic, hence `Option`). -/
def ExpDecaySampleFloat64.applyOp (rexp : ℚ → ℚ) (s : ExpDecaySampleFloat64) :
    DecayOp → Option ExpDecaySampleFloat64
  | DecayOp.update t v u => s.update rexp t v u
  | DecayOp.clear now => some (s.Clear now)

/-- Run a sequence of mutating operations on a decay sampler. -/
def ExpDecaySampleFloat64.runOps (rexp : ℚ → ℚ) (s : ExpDecaySampleFloat64) :
    List DecayOp → Option ExpDecaySampleFloat64
  | [] => some s
  | op :: rest => (s.applyOp rexp op).bind (fun s1 => s1.runOps rexp rest)

/-- Feed a list of `(t, v, u)` updates to a decay sampler. -/
def ExpDecaySampleFloat64.updateMany (rexp : ℚ → ℚ) (s : ExpDecaySampleFloat64)
    (inputs : List (ℚ × ℚ × ℚ)) : Option ExpDecaySampleFloat64 :=
  s.runOps rexp (inputs.map (fun iv => DecayOp.update iv.1 iv.2.1 iv.2.2))

/-- Feed a list of `(v, r)` updates to a uniform sampler. -/
def UniformSampleFloat64.updateMany (s : UniformSampleFloat64)
    (inputs : List (ℚ × ℤ)) : UniformSampleFloat64 :=
  inputs.foldl (fun st pr => st.Update pr.1 pr.2) s

/-- A consumer-visible operation on a decay sampler: mutate, or take a
snapshot (which the runner records). -/
inductive DecaySnapOp where
  | update (t v u : ℚ)
  | clear (now : ℚ)
  | snapshot
deriving DecidableEq, Repr

/-- Run a sequence of operations on a decay sampler, recording every snapshot
taken, in order (`none` if any update panics). -/
def ExpDecaySampleFloat64.runWithSnaps (rexp : ℚ → ℚ) (s : ExpDecaySampleFloat64) :
    List DecaySnapOp → Option (ExpDecaySampleFloat64 × List SampleSnapshotFloat64)
  | [] => some (s, [])
  | DecaySnapOp.update t v u :: rest =>
      (s.update rexp t v u).bind (fun s1 => s1.runWithSnaps rexp rest)
  | DecaySnapOp.clear now :: rest => (s.Clear now).runWithSnaps rexp rest
  | DecaySnapOp.snapshot :: rest =>
      (s.runWithSnaps rexp rest).map (fun pr => (pr.1, s.Snapshot :: pr.2))

section ListHelpers

variable {α : Type _}

theorem getD_set_self (s : List α) (i : Nat) (a d : α) (h : i < s.length) :
    (s.set i a).getD i d = a := by
  have h2 : (s.set i a)[i]? = some a := by
    rw [List.getElem?_set]
    simp [h]
  simp [List.getD_eq_getElem?_getD, h2]

theorem getD_set_ne (s : List α) (i j : Nat) (a d : α) (h : i ≠ j) :
    (s.set i a).getD j d = s.getD j d := by
  simp [List.getD_eq_getElem?_getD, List.getElem?_set_ne h]

theorem getD_of_length_le (s : List α) (i : Nat) (d : α) (h : s.length ≤ i) :
    s.getD i d = d := by
  simp [List.getD_eq_getElem?_getD, List.getElem?_eq_none h]

theorem getD_append_left (s t : List α) (i : Nat) (d : α) (h : i < s.length) :
    (s ++ t).getD i d = s.getD i d := by
  simp [List.getD_eq_getElem?_getD, List.getElem?_append, h]

theorem getD_take (s : List α) (n i : Nat) (d : α) (h : i < n) :
    (s.take n).getD i d = s.getD i d := by
  simp [List.getD_eq_getElem?_getD, List.getElem?_take, h]

theorem getD_cons_swap_perm : ∀ (t : List α) (m : Nat) (a d : α), m < t.length →
    List.Perm (t.getD m d :: t.set m a) (a :: t)
  | b :: t1, 0, a, d, _ => by
    simpa using List.Perm.swap a b t1
  | b :: t1, m + 1, a, d, h => by
    simp only [List.getD_cons_succ, List.set_cons_succ]
    exact ((List.Perm.swap b (t1.getD m d) (t1.set m a)).trans
      ((getD_cons_swap_perm t1 m a d (by simpa using h)).cons b)).trans
      (List.Perm.swap a b t1)

theorem set_swap_perm : ∀ (s : List α) (i j : Nat) (d : α), i < s.length → j < s.length →
    List.Perm ((s.set i (s.getD j d)).set j (s.getD i d)) s
  | a :: t, 0, 0, d, _, _ => by simp
  | a :: t, 0, j + 1, d, _, hj => by
    simpa using getD_cons_swap_perm t j a d (by simpa using hj)
  | a :: t, i + 1, 0, d, hi, _ => by
    simpa using getD_cons_swap_perm t i a d (by simpa using hi)
  | a :: t, i + 1, j + 1, d, hi, hj => by
    simpa using (set_swap_perm t i j d (by simpa using hi) (by simpa using hj)).cons a

end ListHelpers

section HeapLemmas

theorem isMinHeap_iff_heapUpTo (s : List EDItem) : IsMinHeap s ↔ HeapUpTo s s.length :=
  Iff.rfl

theorem lt_downChild (s : List EDItem) (i n : Nat) : i < downChild s i n := by
  unfold downChild; split <;> omega

theorem downChild_lt (s : List EDItem) (i n : Nat) (h : 2 * i + 1 < n) :
    downChild s i n < n := by
  unfold downChild; split
  · next hc => exact hc.1
  · exact h

theorem downChild_parent (s : List EDItem) (i n : Nat) : (downChild s i n - 1) / 2 = i := by
  unfold downChild; split <;> omega

theorem downChild_min (s : List EDItem) (i n : Nat) (h1 : 2 * i + 1 < n) (m : Nat)
    (hm : m < n) (hc : m = 2 * i + 1 ∨ m = 2 * i + 2) :
    (s.getD (downChild s i n) default).k ≤ (s.getD m default).k := by
  unfold downChild
  split
  · next hcond =>
    rcases hc with h | h
    · subst h; exact le_of_not_lt hcond.2
    · subst h; exact le_refl _
  · next hcond =>
    rcases hc with h | h
    · subst h; exact le_refl _
    · subst h
      rcases not_and_or.mp hcond with h2 | h2
      · omega
      · exact le_of_lt (not_not.mp h2)

theorem length_heapDown (s : List EDItem) (i n : Nat) :
    (heapDown s i n).length = s.length := by
  induction s, i, n using heapDown.induct with
  | case1 s i n h1 hlt ih =>
    rw [heapDown]
    simp only [dif_pos h1, if_pos hlt]
    rw [ih]
    simp
  | case2 s i n h1 hnlt =>
    rw [heapDown]
    simp only [dif_pos h1, if_neg hnlt]
  | case3 s i n h1 =>
    rw [heapDown]
    simp only [dif_neg h1]

theorem heapDown_perm (s : List EDItem) (i n : Nat) (hn : n ≤ s.length) :
    List.Perm (heapDown s i n) s := by
  induction s, i, n using heapDown.induct with
  | case1 s i n h1 hlt ih =>
    rw [heapDown]
    simp only [dif_pos h1, if_pos hlt]
    have hj := downChild_lt s i n h1
    have hperm := set_swap_perm s i (downChild s i n) default
      (by omega) (by omega)
    have hlen : ((s.set i (s.getD (downChild s i n) default)).set (downChild s i n)
        (s.getD i default)).length = s.length := by simp
    exact (ih (by omega)).trans hperm
  | case2 s i n h1 hnlt =>
    rw [heapDown]
    simp only [dif_pos h1, if_neg hnlt]
    exact List.Perm.refl s
  | case3 s i n h1 =>
    rw [heapDown]
    simp only [dif_neg h1]
    exact List.Perm.refl s

theorem heapDown_getD_ge (s : List EDItem) (i n : Nat) (m : Nat) (hm : n ≤ m) :
    (heapDown s i n).getD m default = s.getD m default := by
  induction s, i, n using heapDown.induct with
  | case1 s i n h1 hlt ih =>
    rw [heapDown]
    simp only [dif_pos h1, if_pos hlt]
    rw [ih hm]
    have hj := downChild_lt s i n h1
    rw [getD_set_ne _ _ _ _ _ (by omega), getD_set_ne _ _ _ _ _ (by omega)]
  | case2 s i n h1 hnlt =>
    rw [heapDown]
    simp only [dif_pos h1, if_neg hnlt]
  | case3 s i n h1 =>
    rw [heapDown]
    simp only [dif_neg h1]

theorem heapDown_heap (s : List EDItem) (i n : Nat) (hn : n ≤ s.length)
    (h1 : DownInv1 s i n) (h2 : DownInv2 s i n) : HeapUpTo (heapDown s i n) n := by
  induction s, i, n using heapDown.induct with
  | case1 s i n hc hlt ih =>
    rw [heapDown]
    simp only [dif_pos hc, if_pos hlt]
    set j := downChild s i n with hjdef
    have hij : i < j := lt_downChild s i n
    have hjn : j < n := downChild_lt s i n hc
    have hpj : (j - 1) / 2 = i := downChild_parent s i n
    set s1 := (s.set i (s.getD j default)).set j (s.getD i default) with hs1
    have hgi : s1.getD i default = s.getD j default := by
      rw [hs1, getD_set_ne _ _ _ _ _ (by omega), getD_set_self]
      omega
    have hgj : s1.getD j default = s.getD i default := by
      rw [hs1, getD_set_self]
      simp; omega
    have hgo : ∀ m, m ≠ i → m ≠ j → s1.getD m default = s.getD m default := by
      intro m hmi hmj
      rw [hs1, getD_set_ne _ _ _ _ _ (by omega), getD_set_ne _ _ _ _ _ (by omega)]
    have hd1 : DownInv1 s1 j n := by
      intro m hm hm0 hpar
      by_cases hmj : m = j
      · subst hmj
        rw [hpj, hgi, hgj]
        exact le_of_lt hlt
      · by_cases hmi : m = i
        · subst hmi
          have hpi : (m - 1) / 2 ≠ m := by omega
          rw [hgo _ (by omega) (by omega), hgi]
          exact h2 j hjn hpj hm0
        · rw [hgo m hmi hmj]
          by_cases hpar2 : (m - 1) / 2 = i
          · rw [hpar2, hgi]
            exact downChild_min s i n hc m hm (by omega)
          · rw [hgo _ hpar2 hpar]
            exact h1 m hm hm0 hpar2
    have hd2 : DownInv2 s1 j n := by
      intro c hcn hpc hj0
      rw [hpj, hgi]
      have hcj : j < c := by omega
      rw [hgo c (by omega) (by omega)]
      have hx := h1 c hcn (by omega) (by omega)
      rw [hpc] at hx
      exact hx
    have hup := ih (by simp [hs1]; omega) hd1 hd2
    exact hup
  | case2 s i n hc hnlt =>
    rw [heapDown]
    simp only [dif_pos hc, if_neg hnlt]
    intro m hm hm0
    by_cases hpar : (m - 1) / 2 = i
    · rw [hpar]
      calc (s.getD i default).k
          ≤ (s.getD (downChild s i n) default).k := le_of_not_lt hnlt
        _ ≤ (s.getD m default).k := downChild_min s i n hc m hm (by omega)
    · exact h1 m hm hm0 hpar
  | case3 s i n hc =>
    rw [heapDown]
    simp only [dif_neg hc]
    intro m hm hm0
    by_cases hpar : (m - 1) / 2 = i
    · omega
    · exact h1 m hm hm0 hpar

theorem length_heapUp (s : List EDItem) (j : Nat) : (heapUp s j).length = s.length := by
  induction s, j using heapUp.induct with
  | case1 s =>
    rw [heapUp]
    simp
  | case2 s j hj iv hlt ih =>
    have hiv : iv = (j - 1) / 2 := rfl
    rw [hiv] at hlt ih
    rw [heapUp]
    rw [if_neg hj, if_pos hlt, ih]
    simp
  | case3 s j hj iv hnlt =>
    have hiv : iv = (j - 1) / 2 := rfl
    rw [hiv] at hnlt
    rw [heapUp]
    rw [if_neg hj, if_neg hnlt]

theorem heapUp_perm (s : List EDItem) (j : Nat) (hj : j < s.length) :
    List.Perm (heapUp s j) s := by
  induction s, j using heapUp.induct with
  | case1 s =>
    rw [heapUp]
    simp
  | case2 s j hjne iv hlt ih =>
    have hiv : iv = (j - 1) / 2 := rfl
    rw [hiv] at hlt ih
    rw [heapUp]
    rw [if_neg hjne, if_pos hlt]
    have hij : (j - 1) / 2 < j := by omega
    have hperm := set_swap_perm s ((j - 1) / 2) j default (by omega) hj
    have hlen : ((s.set ((j - 1) / 2) (s.getD j default)).set j
        (s.getD ((j - 1) / 2) default)).length = s.length := by simp
    exact (ih (by omega)).trans hperm
  | case3 s j hjne iv hnlt =>
    have hiv : iv = (j - 1) / 2 := rfl
    rw [hiv] at hnlt
    rw [heapUp]
    rw [if_neg hjne, if_neg hnlt]

theorem heapUp_heap (s : List EDItem) (j : Nat) (hj : j < s.length)
    (h1 : UpInv1 s j) (h2 : UpInv2 s j) : IsMinHeap (heapUp s j) := by
  induction s, j using heapUp.induct with
  | case1 s =>
    rw [heapUp]
    simp only [if_pos rfl]
    intro m hm hm0
    exact h1 m hm hm0 (by omega)
  | case2 s j hjne iv hlt ih =>
    have hiv : iv = (j - 1) / 2 := rfl
    rw [hiv] at hlt ih
    rw [heapUp]
    rw [if_neg hjne, if_pos hlt]
    set i := (j - 1) / 2 with hidef
    have hij : i < j := by omega
    set s1 := (s.set i (s.getD j default)).set j (s.getD i default) with hs1
    have hgi : s1.getD i default = s.getD j default := by
      rw [hs1, getD_set_ne _ _ _ _ _ (by omega), getD_set_self]
      omega
    have hgj : s1.getD j default = s.getD i default := by
      rw [hs1, getD_set_self]
      simp
      omega
    have hgo : ∀ m, m ≠ i → m ≠ j → s1.getD m default = s.getD m default := by
      intro m hmi hmj
      rw [hs1, getD_set_ne _ _ _ _ _ (by omega), getD_set_ne _ _ _ _ _ (by omega)]
    have hlen : s1.length = s.length := by simp [hs1]
    have hu1 : UpInv1 s1 i := by
      intro m hm hm0 hmi
      rw [hlen] at hm
      by_cases hmj : m = j
      · subst hmj
        have hpm : (m - 1) / 2 = i := rfl
        rw [hpm, hgi, hgj]
        exact le_of_lt hlt
      · rw [hgo m hmi hmj]
        by_cases hpar : (m - 1) / 2 = j
        · rw [hpar, hgj]
          exact h2 m hm hpar (by omega)
        · by_cases hpar2 : (m - 1) / 2 = i
          · rw [hpar2, hgi]
            have hx := h1 m hm hm0 hmj
            rw [hpar2] at hx
            calc (s.getD j default).k
                ≤ (s.getD i default).k := le_of_lt hlt
              _ ≤ (s.getD m default).k := hx
          · rw [hgo _ hpar2 hpar]
            exact h1 m hm hm0 hmj
    have hu2 : UpInv2 s1 i := by
      intro c hc hpc hi0
      rw [hlen] at hc
      have hpi : (i - 1) / 2 < i := by omega
      have hgpi : s1.getD ((i - 1) / 2) default = s.getD ((i - 1) / 2) default :=
        hgo _ (by omega) (by omega)
      rw [hgpi]
      by_cases hcj : c = j
      · subst hcj
        rw [hgj]
        have hx := h1 i (by omega) hi0 (by omega)
        exact hx
      · have hci : c ≠ i := by omega
        rw [hgo c hci hcj]
        have hx1 := h1 i (by omega) hi0 (by omega)
        have hx2 := h1 c hc (by omega) hcj
        rw [hpc] at hx2
        exact le_trans hx1 hx2
    exact ih (by omega) hu1 hu2
  | case3 s j hjne iv hnlt =>
    have hiv : iv = (j - 1) / 2 := rfl
    rw [hiv] at hnlt
    rw [heapUp]
    rw [if_neg hjne, if_neg hnlt]
    intro m hm hm0
    by_cases hmj : m = j
    · subst hmj
      exact le_of_not_lt hnlt
    · exact h1 m hm hm0 hmj

theorem root_min (s : List EDItem) (h : IsMinHeap s) :
    ∀ j, j < s.length → (s.getD 0 default).k ≤ (s.getD j default).k := by
  intro j
  induction j using Nat.strong_induction_on with
  | _ j ih =>
    intro hj
    rcases Nat.eq_zero_or_pos j with hj0 | hj0
    · subst hj0; exact le_refl _
    · have hpar := h j hj hj0
      have hplt : (j - 1) / 2 < j := by omega
      exact le_trans (ih _ hplt (by omega)) hpar

theorem heapPush_nil (x : EDItem) : heapPush [] x = [x] := by
  rw [heapPush]
  rw [heapUp]
  rfl

theorem length_heapPush (s : List EDItem) (x : EDItem) :
    (heapPush s x).length = s.length + 1 := by
  rw [heapPush, length_heapUp]
  simp

theorem heapPush_perm (s : List EDItem) (x : EDItem) :
    List.Perm (heapPush s x) (x :: s) := by
  rw [heapPush]
  exact (heapUp_perm (s ++ [x]) s.length (by simp)).trans (List.perm_append_singleton x s)

theorem heapPush_heap (s : List EDItem) (x : EDItem) (h : IsMinHeap s) :
    IsMinHeap (heapPush s x) := by
  rw [heapPush]
  apply heapUp_heap (s ++ [x]) s.length (by simp)
  · intro m hm hm0 hmj
    simp at hm
    have hmlt : m < s.length := by omega
    rw [getD_append_left _ _ _ _ hmlt, getD_append_left _ _ _ _ (by omega)]
    exact h m hmlt hm0
  · intro c hc hpc hj0
    simp at hc
    omega

theorem heapPop_spec (s : List EDItem) (hs : s ≠ []) :
    ∃ rest, heapPop s = some (s.getD 0 default, rest) ∧
      rest.length = s.length - 1 ∧
      List.Perm (s.getD 0 default :: rest) s ∧
      (IsMinHeap s → IsMinHeap rest ∧ ∀ x ∈ s, (s.getD 0 default).k ≤ x.k) := by
  obtain ⟨c, t, rfl⟩ := List.exists_cons_of_ne_nil hs
  have hL : 0 < (c :: t).length := by simp
  set n := (c :: t).length - 1 with hn
  set s1 := ((c :: t).set 0 ((c :: t).getD n default)).set n ((c :: t).getD 0 default) with hs1
  set s2 := heapDown s1 0 n with hs2
  have hpop : heapPop (c :: t) =
      some (s2.getD (s2.length - 1) default, s2.take (s2.length - 1)) := rfl
  have hlen1 : s1.length = (c :: t).length := by rw [hs1]; simp
  have hlen2 : s2.length = (c :: t).length := by rw [hs2, length_heapDown]; exact hlen1
  have hperm1 : List.Perm s1 (c :: t) := set_swap_perm _ 0 n default (by omega) (by omega)
  have hperm2 : List.Perm s2 s1 := by
    rw [hs2]; exact heapDown_perm s1 0 n (by omega)
  have hlast : s2.getD n default = (c :: t).getD 0 default := by
    rw [hs2, heapDown_getD_ge _ _ _ _ (le_refl n), hs1]
    rcases Nat.eq_zero_or_pos n with h0 | h0
    · rw [h0, List.set_set, getD_set_self]
      exact hL
    · rw [getD_set_self]
      simp only [List.length_set]
      omega
  have hgn : s2.getD (s2.length - 1) default = (c :: t).getD 0 default := by
    rw [hlen2, ← hn]; exact hlast
  refine ⟨s2.take (s2.length - 1), ?_, ?_, ?_, ?_⟩
  · rw [hpop, hgn]
  · rw [List.length_take]
    simp only [hlen2]
    omega
  · have hlt : s2.length - 1 < s2.length := by omega
    have hsplit : s2.take (s2.length - 1) ++ [s2.getD (s2.length - 1) default] = s2 := by
      rw [List.getD_eq_getElem s2 default hlt]
      have h2 := List.take_concat_get s2 (s2.length - 1) hlt
      rw [List.concat_eq_append] at h2
      rw [h2]
      have heq : s2.length - 1 + 1 = s2.length := by omega
      rw [heq, List.take_length]
    have hx : s2.take (s2.length - 1) ++ [(c :: t).getD 0 default] = s2 := by
      rw [← hgn]; exact hsplit
    have hy : List.Perm ((c :: t).getD 0 default :: s2.take (s2.length - 1)) s2 := by
      conv_rhs => rw [← hx]
      exact (List.perm_append_singleton _ _).symm
    exact hy.trans (hperm2.trans hperm1)
  · intro hheap
    constructor
    · -- the remaining entries form a heap: `heapDown` re-establishes the
      -- invariant on the first `n` entries after the root/last swap
      have hd1 : DownInv1 s1 0 n := by
        intro m hm hm0 hpar
        have hgm : s1.getD m default = (c :: t).getD m default := by
          rw [hs1, getD_set_ne _ _ _ _ _ (by omega), getD_set_ne _ _ _ _ _ (by omega)]
        have hgp : s1.getD ((m - 1) / 2) default = (c :: t).getD ((m - 1) / 2) default := by
          rw [hs1, getD_set_ne _ _ _ _ _ (by omega), getD_set_ne _ _ _ _ _ (by omega)]
        rw [hgm, hgp]
        exact hheap m (by omega) hm0
      have hd2 : DownInv2 s1 0 n := by
        intro cdx hc hpc hi0
        omega
      have hupto : HeapUpTo s2 n := by
        rw [hs2]
        exact heapDown_heap s1 0 n (by omega) hd1 hd2
      intro j hj hj0
      have hlentake : (List.take (s2.length - 1) s2).length = s2.length - 1 := by
        rw [List.length_take]
        omega
      have hjlen : j < n := by omega
      rw [getD_take _ _ _ _ (by omega), getD_take _ _ _ _ (by omega)]
      exact hupto j hjlen hj0
    · intro x hx
      obtain ⟨i, hi, hgx⟩ := List.mem_iff_getElem.mp hx
      have hxg : x = (c :: t).getD i default := by
        rw [List.getD_eq_getElem _ default hi, hgx]
      rw [hxg]
      exact root_min _ hheap i hi

end HeapLemmas

section SortedAndFoldHelpers

theorem sorted_getD_zero_le (l : List ℚ) (hs : List.Sorted (· ≤ ·) l)
    (x : ℚ) (hx : x ∈ l) : l.getD 0 0 ≤ x := by
  match l with
  | a :: t =>
    rcases List.mem_cons.mp hx with h | h
    · subst h; simp
    · simpa using (List.sorted_cons.mp hs).1 x h

theorem le_sorted_getD_last (l : List ℚ) (hs : List.Sorted (· ≤ ·) l)
    (x : ℚ) (hx : x ∈ l) : x ≤ l.getD (l.length - 1) 0 := by
  obtain ⟨i, hi, hgx⟩ := List.mem_iff_getElem.mp hx
  have hlast : l.length - 1 < l.length := by omega
  have hrel := List.Sorted.rel_get_of_le hs
    (Fin.mk_le_mk.mpr (by omega : i ≤ l.length - 1) : (⟨i, hi⟩ : Fin l.length) ≤ ⟨l.length - 1, hlast⟩)
  rw [List.getD_eq_getElem l 0 hlast]
  rw [← hgx]
  exact hrel

theorem getD_zero_mem (l : List ℚ) (hl : l ≠ []) : l.getD 0 0 ∈ l := by
  have h0 : 0 < l.length := List.length_pos.mpr hl
  rw [List.getD_eq_getElem l 0 h0]
  exact List.getElem_mem h0

theorem getD_last_mem (l : List ℚ) (hl : l ≠ []) : l.getD (l.length - 1) 0 ∈ l := by
  have h0 : 0 < l.length := List.length_pos.mpr hl
  have hlast : l.length - 1 < l.length := by omega
  rw [List.getD_eq_getElem l 0 hlast]
  exact List.getElem_mem hlast

theorem foldl_heapPush_length (f : EDItem → EDItem) :
    ∀ (l : List EDItem) (init : List EDItem),
      (l.foldl (fun acc it => heapPush acc (f it)) init).length = init.length + l.length
  | [], init => by simp
  | x :: xs, init => by
    rw [List.foldl_cons, foldl_heapPush_length f xs (heapPush init (f x)), length_heapPush]
    simp
    omega

theorem foldl_heapPush_perm (f : EDItem → EDItem) :
    ∀ (l : List EDItem) (init : List EDItem),
      List.Perm (l.foldl (fun acc it => heapPush acc (f it)) init) (init ++ l.map f)
  | [], init => by simp
  | x :: xs, init => by
    rw [List.foldl_cons, List.map_cons]
    have h1 := foldl_heapPush_perm f xs (heapPush init (f x))
    have h2 : List.Perm (heapPush init (f x) ++ xs.map f) ((f x :: init) ++ xs.map f) :=
      List.Perm.append_right _ (heapPush_perm init (f x))
    have h3 : List.Perm ((f x :: init) ++ xs.map f) (init ++ f x :: xs.map f) := by
      simpa using (List.perm_middle).symm
    exact (h1.trans h2).trans h3

theorem foldl_heapPush_minHeap (f : EDItem → EDItem) :
    ∀ (l : List EDItem) (init : List EDItem), IsMinHeap init →
      IsMinHeap (l.foldl (fun acc it => heapPush acc (f it)) init)
  | [], init, h => h
  | x :: xs, init, h => by
    rw [List.foldl_cons]
    exact foldl_heapPush_minHeap f xs _ (heapPush_heap init (f x) h)

theorem foldl_rescale_length (rexp : ℚ → ℚ) (a t0 t : ℚ) (l init : List EDItem) :
    (l.foldl (fun acc it =>
        heapPush acc { k := it.k * rexp (-a * (t - t0)), v := it.v }) init).length
      = init.length + l.length :=
  foldl_heapPush_length _ l init

theorem foldl_rescale_perm (rexp : ℚ → ℚ) (a t0 t : ℚ) (l init : List EDItem) :
    List.Perm
      (l.foldl (fun acc it =>
        heapPush acc { k := it.k * rexp (-a * (t - t0)), v := it.v }) init)
      (init ++ l.map (fun it => { k := it.k * rexp (-a * (t - t0)), v := it.v })) :=
  foldl_heapPush_perm _ l init

theorem foldl_rescale_minHeap (rexp : ℚ → ℚ) (a t0 t : ℚ) (l init : List EDItem)
    (h : IsMinHeap init) :
    IsMinHeap (l.foldl (fun acc it =>
      heapPush acc { k := it.k * rexp (-a * (t - t0)), v := it.v }) init) :=
  foldl_heapPush_minHeap _ l init h

end SortedAndFoldHelpers

section RunnerLemmas

theorem runWithSnaps_fst (s : UniformSampleFloat64) :
    ∀ ops : List UniformSnapOp,
      (s.runWithSnaps ops).1 = s.run (UniformSnapOp.toOps ops) := by
  intro ops
  induction ops generalizing s with
  | nil => rfl
  | cons op rest ih =>
    cases op with
    | update v r =>
      simp only [UniformSampleFloat64.runWithSnaps, UniformSnapOp.toOps,
        UniformSampleFloat64.run, List.foldl_cons]
      exact ih (s.Update v r)
    | clear =>
      simp only [UniformSampleFloat64.runWithSnaps, UniformSnapOp.toOps,
        UniformSampleFloat64.run, List.foldl_cons]
      exact ih s.Clear
    | snapshot =>
      simp only [UniformSampleFloat64.runWithSnaps, UniformSnapOp.toOps]
      exact ih s

theorem runWithSnaps_append (s : UniformSampleFloat64) :
    ∀ (l1 l2 : List UniformSnapOp),
      s.runWithSnaps (l1 ++ l2) =
        (((s.runWithSnaps l1).1.runWithSnaps l2).1,
          (s.runWithSnaps l1).2 ++ ((s.runWithSnaps l1).1.runWithSnaps l2).2) := by
  intro l1
  induction l1 generalizing s with
  | nil =>
    intro l2
    simp [UniformSampleFloat64.runWithSnaps]
  | cons op rest ih =>
    intro l2
    cases op with
    | update v r =>
      simp only [List.cons_append, UniformSampleFloat64.runWithSnaps]
      exact ih (s.Update v r) l2
    | clear =>
      simp only [List.cons_append, UniformSampleFloat64.runWithSnaps]
      exact ih s.Clear l2
    | snapshot =>
      simp only [List.cons_append, UniformSampleFloat64.runWithSnaps]
      rw [List.append_eq, ih s l2]

end RunnerLemmas

section SamplerLemmas

theorem update_eq_some (rexp : ℚ → ℚ) (s : ExpDecaySampleFloat64) (t v u : ℚ) (vs : List EDItem)
    (hvs : (if s.values.length = s.reservoirSize
            then (heapPop s.values).map (fun pr => pr.2) else some s.values) = some vs) :
    s.update rexp t v u =
      (if s.t1 < t then
        some { s with
                count := s.count + 1
                t0 := t
                t1 := t + rescaleThreshold
                values := (heapPush vs { k := rexp ((t - s.t0) * s.alpha) / u, v := v }).foldl
                  (fun acc it => heapPush acc { k := it.k * rexp (-s.alpha * (t - s.t0)), v := it.v }) [] }
       else
        some { s with
                count := s.count + 1
                values := heapPush vs { k := rexp ((t - s.t0) * s.alpha) / u, v := v } }) := by
  unfold ExpDecaySampleFloat64.update
  rw [hvs]

theorem update_eq_none (rexp : ℚ → ℚ) (s : ExpDecaySampleFloat64) (t v u : ℚ)
    (hvs : (if s.values.length = s.reservoirSize
            then (heapPop s.values).map (fun pr => pr.2) else some s.values) = none) :
    s.update rexp t v u = none := by
  unfold ExpDecaySampleFloat64.update
  rw [hvs]

theorem uniform_update_step (s : UniformSampleFloat64) (v : ℚ) (r : ℤ) (n : ℕ)
    (hc : s.count = (n : ℤ)) (hl : s.values.length = min n s.reservoirSize) :
    (s.Update v r).count = ((n + 1 : ℕ) : ℤ) ∧
    (s.Update v r).values.length = min (n + 1) s.reservoirSize ∧
    (s.Update v r).reservoirSize = s.reservoirSize := by
  unfold UniformSampleFloat64.Update
  by_cases hlt : s.values.length < s.reservoirSize
  · rw [if_pos hlt]
    refine ⟨by rw [hc]; push_cast; ring, ?_, rfl⟩
    simp only [List.length_append, List.length_cons, List.length_nil]
    omega
  · rw [if_neg hlt]
    by_cases hr : r < (s.values.length : ℤ)
    · rw [if_pos hr]
      refine ⟨by rw [hc]; push_cast; ring, ?_, rfl⟩
      simp only [List.length_set]
      omega
    · rw [if_neg hr]
      refine ⟨by rw [hc]; push_cast; ring, ?_, rfl⟩
      show s.values.length = min (n + 1) s.reservoirSize
      omega

theorem uniform_updateMany_inv :
    ∀ (inputs : List (ℚ × ℤ)) (s : UniformSampleFloat64) (n : ℕ),
      s.count = (n : ℤ) → s.values.length = min n s.reservoirSize →
      (s.updateMany inputs).count = ((n + inputs.length : ℕ) : ℤ) ∧
      (s.updateMany inputs).values.length = min (n + inputs.length) s.reservoirSize ∧
      (s.updateMany inputs).reservoirSize = s.reservoirSize
  | [], s, n, hc, hl => by
    refine ⟨by simpa using hc, by simpa using hl, rfl⟩
  | (v, r) :: rest, s, n, hc, hl => by
    obtain ⟨hc1, hl1, hres1⟩ := uniform_update_step s v r n hc hl
    have ih := uniform_updateMany_inv rest (s.Update v r) (n + 1) hc1 (by rw [hres1]; exact hl1)
    unfold UniformSampleFloat64.updateMany at ih ⊢
    rw [List.foldl_cons]
    refine ⟨?_, ?_, ?_⟩
    · rw [ih.1]
      congr 1
      simp
      omega
    · rw [ih.2.1, hres1]
      congr 1
      simp
      omega
    · rw [ih.2.2, hres1]

theorem decay_update_step (rexp : ℚ → ℚ) (s : ExpDecaySampleFloat64) (t v u : ℚ)
    (d1 : ExpDecaySampleFloat64) (hlen : s.values.length ≤ s.reservoirSize)
    (hup : s.update rexp t v u = some d1) :
    d1.count = s.count + 1 ∧ d1.values.length ≤ s.reservoirSize ∧
    d1.reservoirSize = s.reservoirSize ∧ d1.alpha = s.alpha := by
  by_cases hfull : s.values.length = s.reservoirSize
  · rcases hnil : s.values with _ | ⟨c, tl⟩
    · exfalso
      have hnone : s.update rexp t v u = none := by
        apply update_eq_none
        rw [if_pos hfull, hnil]
        rfl
      rw [hnone] at hup
      cases hup
    · have hne : s.values ≠ [] := by rw [hnil]; simp
      obtain ⟨rest, hpop, hrest, hperm, _⟩ := heapPop_spec s.values hne
      have hvs : (if s.values.length = s.reservoirSize
          then (heapPop s.values).map (fun pr => pr.2) else some s.values) = some rest := by
        rw [if_pos hfull, hpop]
        rfl
      rw [update_eq_some rexp s t v u rest hvs] at hup
      have hlenrest : rest.length = s.values.length - 1 := hrest
      have hpos : 0 < s.values.length := by rw [hnil]; simp
      split at hup
      · cases hup
        refine ⟨rfl, ?_, rfl, rfl⟩
        show ((heapPush rest { k := rexp ((t - s.t0) * s.alpha) / u, v := v }).foldl
            (fun acc it =>
              heapPush acc { k := it.k * rexp (-s.alpha * (t - s.t0)), v := it.v }) []).length
          ≤ s.reservoirSize
        rw [foldl_rescale_length, length_heapPush]
        simp only [List.length_nil]
        omega
      · cases hup
        refine ⟨rfl, ?_, rfl, rfl⟩
        show (heapPush rest { k := rexp ((t - s.t0) * s.alpha) / u, v := v }).length
          ≤ s.reservoirSize
        rw [length_heapPush]
        omega
  · have hvs : (if s.values.length = s.reservoirSize
        then (heapPop s.values).map (fun pr => pr.2) else some s.values) = some s.values := by
      rw [if_neg hfull]
    rw [update_eq_some rexp s t v u s.values hvs] at hup
    split at hup
    · cases hup
      refine ⟨rfl, ?_, rfl, rfl⟩
      show ((heapPush s.values { k := rexp ((t - s.t0) * s.alpha) / u, v := v }).foldl
          (fun acc it =>
            heapPush acc { k := it.k * rexp (-s.alpha * (t - s.t0)), v := it.v }) []).length
        ≤ s.reservoirSize
      rw [foldl_rescale_length, length_heapPush]
      simp only [List.length_nil]
      omega
    · cases hup
      refine ⟨rfl, ?_, rfl, rfl⟩
      show (heapPush s.values { k := rexp ((t - s.t0) * s.alpha) / u, v := v }).length
        ≤ s.reservoirSize
      rw [length_heapPush]
      omega

theorem decay_updateMany_inv (rexp : ℚ → ℚ) :
    ∀ (inputs : List (ℚ × ℚ × ℚ)) (s : ExpDecaySampleFloat64) (d1 : ExpDecaySampleFloat64),
      s.values.length ≤ s.reservoirSize →
      s.updateMany rexp inputs = some d1 →
      d1.count = s.count + inputs.length ∧ d1.values.length ≤ s.reservoirSize ∧
      d1.reservoirSize = s.reservoirSize
  | [], s, d1, hlen, hup => by
    unfold ExpDecaySampleFloat64.updateMany ExpDecaySampleFloat64.runOps at hup
    simp only [List.map_nil] at hup
    cases hup
    exact ⟨by simp, hlen, rfl⟩
  | (t, v, u) :: rest, s, d1, hlen, hup => by
    unfold ExpDecaySampleFloat64.updateMany ExpDecaySampleFloat64.runOps at hup
    simp only [List.map_cons] at hup
    obtain ⟨mid, hmid, hrest⟩ := Option.bind_eq_some.mp hup
    have hmid2 : s.update rexp t v u = some mid := hmid
    obtain ⟨hc1, hl1, hres1, _⟩ := decay_update_step rexp s t v u mid hlen hmid2
    have ih := decay_updateMany_inv rexp rest mid d1 (by rw [hres1]; exact hl1) hrest
    refine ⟨?_, by rw [← hres1]; exact ih.2.1, by rw [ih.2.2, hres1]⟩
    rw [ih.1, hc1]
    simp
    ring

theorem decay_runWithSnaps_append (rexp : ℚ → ℚ) :
    ∀ (l1 : List DecaySnapOp) (d d1 : ExpDecaySampleFloat64)
      (sn1 : List SampleSnapshotFloat64) (l2 : List DecaySnapOp),
      d.runWithSnaps rexp l1 = some (d1, sn1) →
      d.runWithSnaps rexp (l1 ++ l2) =
        (d1.runWithSnaps rexp l2).map (fun pr => (pr.1, sn1 ++ pr.2))
  | [], d, d1, sn1, l2, h => by
    unfold ExpDecaySampleFloat64.runWithSnaps at h
    cases h
    simp only [List.nil_append]
    cases hrun : d.runWithSnaps rexp l2 with
    | none => rfl
    | some pr => simp
  | DecaySnapOp.update t v u :: l1, d, d1, sn1, l2, h => by
    unfold ExpDecaySampleFloat64.runWithSnaps at h
    obtain ⟨mid, hmid, hrest⟩ := Option.bind_eq_some.mp h
    have hstep := decay_runWithSnaps_append rexp l1 mid d1 sn1 l2 hrest
    show (d.update rexp t v u).bind _ = _
    rw [hmid]
    exact hstep
  | DecaySnapOp.clear now :: l1, d, d1, sn1, l2, h => by
    unfold ExpDecaySampleFloat64.runWithSnaps at h
    exact decay_runWithSnaps_append rexp l1 (d.Clear now) d1 sn1 l2 h
  | DecaySnapOp.snapshot :: l1, d, d1, sn1, l2, h => by
    unfold ExpDecaySampleFloat64.runWithSnaps at h
    obtain ⟨pr1, hpr1, hpr2⟩ := Option.map_eq_some'.mp h
    have heq1 : d1 = pr1.1 := by
      have hfst := congrArg Prod.fst hpr2
      simpa using hfst.symm
    have heq2 : sn1 = d.Snapshot :: pr1.2 := by
      have hsnd := congrArg Prod.snd hpr2
      simpa using hsnd.symm
    have hstep := decay_runWithSnaps_append rexp l1 d pr1.1 pr1.2 l2 (by rw [hpr1])
    show (d.runWithSnaps rexp (l1 ++ l2)).map _ = _
    rw [hstep, heq1, heq2]
    cases pr1.1.runWithSnaps rexp l2 with
    | none => rfl
    | some pr => simp

end SamplerLemmas

/-- C9: `Update` and `Clear` on a snapshot always fail loudly (modelled: they
panic, returning `none` — no updated snapshot state is ever produced), for
every snapshot regardless of its contents; the snapshot record itself is
untouched. -/
theorem c9_snapshot_mutation_panics (snap : SampleSnapshotFloat64) (v : ℚ) :
    snap.Update v = none ∧ snap.Clear = none ∧
    (∀ s2 : SampleSnapshotFloat64, snap.Update v ≠ some s2) ∧
    (∀ s2 : SampleSnapshotFloat64, snap.Clear ≠ some s2) :=
  ⟨rfl, rfl, fun _ h => Option.noConfusion h, fun _ h => Option.noConfusion h⟩

/-- C10: constructing a decay sampler with reservoir size 0 makes every
`Update` panic: the capacity check (`heap size == reservoirSize`) triggers a
`Pop` on the empty heap, which indexes element 0 of an empty array; heap `Pop`
succeeds exactly on non-empty heaps. -/
theorem c10_zero_reservoir_update_panics (rexp : ℚ → ℚ) (alpha now t v u : ℚ)
    (d : ExpDecaySampleFloat64) (hcap : d.reservoirSize = 0) (hval : d.values = []) :
    d.update rexp t v u = none ∧
    (NewExpDecaySampleFloat64 0 alpha now).update rexp t v u = none ∧
    (NewExpDecaySampleFloat64 0 alpha now).values = [] ∧
    (NewExpDecaySampleFloat64 0 alpha now).reservoirSize = 0 ∧
    (∀ hs : List EDItem, heapPop hs = none ↔ hs = []) := by
  have hgen : ∀ (d2 : ExpDecaySampleFloat64), d2.reservoirSize = 0 → d2.values = [] →
      d2.update rexp t v u = none := by
    intro d2 h0 hv2
    apply update_eq_none
    rw [if_pos (by rw [h0, hv2]; rfl), hv2]
    rfl
  refine ⟨hgen d hcap hval, hgen _ rfl rfl, rfl, rfl, ?_⟩
  intro hs
  constructor
  · intro hnone
    by_contra hne
    obtain ⟨rest, hpop, -⟩ := heapPop_spec hs hne
    rw [hpop] at hnone
    cases hnone
  · intro hnil
    rw [hnil]
    rfl

/-- C10 witness: the zero-capacity update panics on a concrete sampler. -/
theorem c10_zero_reservoir_update_panics_witness :
    (NewExpDecaySampleFloat64 0 1 0).reservoirSize = 0 ∧
    (NewExpDecaySampleFloat64 0 1 0).values = [] ∧
    (NewExpDecaySampleFloat64 0 1 0).update (fun _ => 1) 1 5 (1/2) = none :=
  ⟨rfl, rfl,
    (c10_zero_reservoir_update_panics (fun _ => 1) 1 0 1 5 (1/2)
      (NewExpDecaySampleFloat64 0 1 0) rfl rfl).1⟩

/-- C4 counterexample: on an empty value collection, a percentile computation
does not return an empty result set — it returns a zero for each requested
percentile (here: one requested percentile yields `[0]`, not `[]`). -/
theorem c4_empty_percentiles_counterexample :
    (SamplePercentilesFloat64 [] [(1 : ℚ)/2]).1 = [0] ∧
    (SamplePercentilesFloat64 [] [(1 : ℚ)/2]).1 ≠ ([] : List ℚ) := by
  constructor
  · rfl
  · intro h
    cases h

/-- C4 (amended): on an empty value collection every statistic — Min, Max,
Mean, Sum, Variance, StdDev — returns 0 deterministically, and a percentile
computation short-circuits the sort, returning 0 for each requested
percentile (a zero-filled result of the same length as the request, not an
empty result set). -/
theorem c4_empty_stats_amended :
    SampleMaxFloat64 [] = 0 ∧ SampleMinFloat64 [] = 0 ∧ SampleMeanFloat64 [] = 0 ∧
    SampleSumFloat64 [] = 0 ∧ SampleVarianceFloat64 [] = 0 ∧ SampleStdDevFloat64 [] = 0 ∧
    (∀ ps : List ℚ, (SamplePercentilesFloat64 [] ps).1 = ps.map (fun _ => 0)) ∧
    (∀ p : ℚ, (SamplePercentileFloat64 [] p).1 = 0) := by
  refine ⟨rfl, rfl, rfl, rfl, rfl, ?_, fun ps => rfl, fun p => rfl⟩
  have hv : SampleVarianceFloat64 [] = 0 := rfl
  simp [SampleStdDevFloat64, hv]

/-- C5 counterexample: `SamplePercentilesFloat64` sorts its input slice in
place; on input `[2, 1]` the input afterwards is `[1, 2]`, not the original
order `[2, 1]`. -/
theorem c5_input_mutation_counterexample :
    (SamplePercentilesFloat64 [2, 1] [(1 : ℚ)/2]).2 = [1, 2] ∧
    (SamplePercentilesFloat64 [2, 1] [(1 : ℚ)/2]).2 ≠ [2, 1] := by
  constructor <;> decide

/-- C5 (amended): the statistics functions do not allocate a working copy —
`SamplePercentilesFloat64` (and `SamplePercentileFloat64`) sort the input
slice itself in place.  After the call the input holds the same multiset of
elements, but rearranged into ascending order whenever it is non-empty; an
empty input is returned untouched. -/
theorem c5_inplace_sort_amended (values ps : List ℚ) (p : ℚ) :
    List.Perm (SamplePercentilesFloat64 values ps).2 values ∧
    (values ≠ [] → List.Sorted (· ≤ ·) (SamplePercentilesFloat64 values ps).2) ∧
    (values = [] → (SamplePercentilesFloat64 values ps).2 = values) ∧
    (SamplePercentileFloat64 values p).2 = (SamplePercentilesFloat64 values [p]).2 := by
  by_cases h : 0 < values.length
  · have h2 : (SamplePercentilesFloat64 values ps).2 = values.insertionSort (· ≤ ·) := by
      simp only [SamplePercentilesFloat64]
      rw [if_pos h]
    refine ⟨?_, fun _ => ?_, fun hnil => ?_, rfl⟩
    · rw [h2]; exact List.perm_insertionSort _ _
    · rw [h2]; exact List.sorted_insertionSort _ _
    · exact absurd (by rw [hnil]; rfl : values.length = 0) (by omega)
  · have hnil : values = [] := List.length_eq_zero.mp (by omega)
    have h2 : (SamplePercentilesFloat64 values ps).2 = values := by
      simp only [SamplePercentilesFloat64]
      rw [if_neg h]
    refine ⟨by rw [h2], fun hne => absurd hnil hne, fun _ => h2, rfl⟩

/-- C5 witness for the amended claim at a concrete input. -/
theorem c5_inplace_sort_amended_witness :
    List.Perm (SamplePercentilesFloat64 [2, 1] [(1 : ℚ)/2]).2 [2, 1] ∧
    List.Sorted (· ≤ ·) (SamplePercentilesFloat64 [2, 1] [(1 : ℚ)/2]).2 :=
  ⟨(c5_inplace_sort_amended [2, 1] [(1 : ℚ)/2] 0).1,
   (c5_inplace_sort_amended [2, 1] [(1 : ℚ)/2] 0).2.1 (by decide)⟩

/-- C2: every `Update(value)` on the uniform sampler increments `count`;
below capacity the value is appended; at capacity, with `r` the uniform
oracle drawn in `[0, count)` (count already incremented), the value
overwrites `values[r]` when `r < capacity` and is discarded otherwise. -/
theorem c2_uniform_update (s : UniformSampleFloat64) (v : ℚ) (r : ℤ)
    (hinv : s.values.length ≤ s.reservoirSize) (hr0 : 0 ≤ r) (hrc : r < s.count + 1) :
    (s.Update v r).count = s.count + 1 ∧
    (s.values.length < s.reservoirSize → (s.Update v r).values = s.values ++ [v]) ∧
    (s.values.length = s.reservoirSize →
      (r < (s.reservoirSize : ℤ) → (s.Update v r).values = s.values.set r.toNat v) ∧
      ((s.reservoirSize : ℤ) ≤ r → (s.Update v r).values = s.values)) := by
  unfold UniformSampleFloat64.Update
  refine ⟨?_, ?_, ?_⟩
  · split
    · rfl
    · split <;> rfl
  · intro hlt
    rw [if_pos hlt]
  · intro heq
    have hnlt : ¬ s.values.length < s.reservoirSize := by omega
    constructor
    · intro hrlt
      rw [if_neg hnlt, if_pos (by rw [heq]; exact hrlt)]
    · intro hge
      rw [if_neg hnlt, if_neg (by rw [heq]; exact not_lt.mpr hge)]

/-- C2 witness: a concrete at-capacity overwrite. -/
theorem c2_uniform_update_witness :
    (({ count := 2, reservoirSize := 2, values := [5, 6] } :
        UniformSampleFloat64).Update 7 1).count = 3 ∧
    (({ count := 2, reservoirSize := 2, values := [5, 6] } :
        UniformSampleFloat64).Update 7 1).values = [5, 7] := by
  have h := c2_uniform_update { count := 2, reservoirSize := 2, values := [5, 6] } 7 1
    (by decide) (by decide) (by decide)
  exact ⟨h.1, by rw [(h.2.2 rfl).1 (by decide)]; rfl⟩

/-- C8: heap `Push` preserves the min-heap invariant (and inserts exactly the
new item); on any non-empty heap satisfying the invariant, `Pop` removes and
returns an item whose priority is minimal among all items, and the remaining
heap still satisfies the invariant. -/
theorem c8_heap_push_pop (s : List EDItem) (x : EDItem) (h : IsMinHeap s) :
    IsMinHeap (heapPush s x) ∧
    List.Perm (heapPush s x) (x :: s) ∧
    (s ≠ [] → ∃ m rest, heapPop s = some (m, rest) ∧ IsMinHeap rest ∧
      List.Perm (m :: rest) s ∧ m ∈ s ∧ ∀ y ∈ s, m.k ≤ y.k) := by
  refine ⟨heapPush_heap s x h, heapPush_perm s x, ?_⟩
  intro hne
  obtain ⟨rest, hpop, hlen, hperm, hmin⟩ := heapPop_spec s hne
  obtain ⟨hheap, hforall⟩ := hmin h
  exact ⟨s.getD 0 default, rest, hpop, hheap, hperm,
    (hperm.mem_iff).mp (List.mem_cons_self _ _), hforall⟩

/-- C8 witness: push and pop on a concrete three-element min-heap. -/
theorem c8_heap_push_pop_witness :
    IsMinHeap [EDItem.mk 1 10, EDItem.mk 2 20, EDItem.mk 3 30] ∧
    IsMinHeap (heapPush [EDItem.mk 1 10, EDItem.mk 2 20, EDItem.mk 3 30] (EDItem.mk 0 5)) ∧
    (∃ m rest, heapPop [EDItem.mk 1 10, EDItem.mk 2 20, EDItem.mk 3 30] = some (m, rest) ∧
      IsMinHeap rest ∧
      List.Perm (m :: rest) [EDItem.mk 1 10, EDItem.mk 2 20, EDItem.mk 3 30] ∧
      m ∈ [EDItem.mk 1 10, EDItem.mk 2 20, EDItem.mk 3 30] ∧
      ∀ y ∈ [EDItem.mk 1 10, EDItem.mk 2 20, EDItem.mk 3 30], m.k ≤ y.k) := by
  have h := c8_heap_push_pop [EDItem.mk 1 10, EDItem.mk 2 20, EDItem.mk 3 30]
    (EDItem.mk 0 5) (by decide)
  exact ⟨by decide, h.1, h.2.2 (by decide)⟩

/-- C7: for every sequence of N updates since the last `Clear`, on either
sampler, `Count` equals N while `Size` is at most the configured capacity;
for the uniform sampler the retained list length is exactly
`min (count, capacity)`. -/
theorem c7_count_size_invariant (rexp : ℚ → ℚ) :
    (∀ (s : UniformSampleFloat64) (inputs : List (ℚ × ℤ)),
      (s.Clear.updateMany inputs).count = (inputs.length : ℤ) ∧
      (s.Clear.updateMany inputs).values.length = min inputs.length s.reservoirSize ∧
      (s.Clear.updateMany inputs).Size ≤ s.reservoirSize) ∧
    (∀ (d : ExpDecaySampleFloat64) (now : ℚ) (inputs : List (ℚ × ℚ × ℚ))
       (d1 : ExpDecaySampleFloat64),
      (d.Clear now).updateMany rexp inputs = some d1 →
      d1.count = (inputs.length : ℤ) ∧ d1.Size ≤ d.reservoirSize) := by
  constructor
  · intro s inputs
    have h := uniform_updateMany_inv inputs s.Clear 0 rfl (by simp [UniformSampleFloat64.Clear])
    have hcr : s.Clear.reservoirSize = s.reservoirSize := rfl
    refine ⟨by rw [h.1]; simp, ?_, ?_⟩
    · have h2 := h.2.1
      simpa using h2
    · have h2 := h.2.1
      unfold UniformSampleFloat64.Size
      omega
  · intro d now inputs d1 hup
    have h := decay_updateMany_inv rexp inputs (d.Clear now) d1
      (by simp [ExpDecaySampleFloat64.Clear]) hup
    have hcc : (d.Clear now).count = 0 := rfl
    have hcr : (d.Clear now).reservoirSize = d.reservoirSize := rfl
    refine ⟨by rw [h.1, hcc]; simp, ?_⟩
    have h2 := h.2.1
    unfold ExpDecaySampleFloat64.Size
    omega

/-- C7 witness: concrete runs on both samplers. -/
theorem c7_count_size_invariant_witness :
    ((NewUniformSampleFloat64 2).Clear.updateMany [(10, 0), (20, 0), (30, 0)]).count = 3 ∧
    ((NewUniformSampleFloat64 2).Clear.updateMany [(10, 0), (20, 0), (30, 0)]).values.length = 2 ∧
    ∃ d1, ((NewExpDecaySampleFloat64 2 1 0).Clear 0).updateMany (fun _ => 1) [(1, 5, 1/2)] =
        some d1 ∧ d1.count = 1 ∧ d1.Size ≤ 2 := by
  have hu := (c7_count_size_invariant (fun _ => 1)).1 (NewUniformSampleFloat64 2)
    [(10, 0), (20, 0), (30, 0)]
  have hvs : (if ((NewExpDecaySampleFloat64 2 1 0).Clear 0).values.length =
        ((NewExpDecaySampleFloat64 2 1 0).Clear 0).reservoirSize
      then (heapPop ((NewExpDecaySampleFloat64 2 1 0).Clear 0).values).map (fun pr => pr.2)
      else some ((NewExpDecaySampleFloat64 2 1 0).Clear 0).values) = some [] := rfl
  have hupd := update_eq_some (fun _ => 1) ((NewExpDecaySampleFloat64 2 1 0).Clear 0)
    1 5 (1/2) [] hvs
  rw [if_neg (by norm_num [ExpDecaySampleFloat64.Clear, NewExpDecaySampleFloat64,
    rescaleThreshold])] at hupd
  rw [heapPush_nil] at hupd
  obtain ⟨rec1, hrec⟩ : ∃ rec1,
      ((NewExpDecaySampleFloat64 2 1 0).Clear 0).update (fun _ => 1) 1 5 (1/2) = some rec1 :=
    ⟨_, hupd⟩
  have hmany : ((NewExpDecaySampleFloat64 2 1 0).Clear 0).updateMany (fun _ => 1)
      [(1, 5, 1/2)] = some rec1 := by
    show (((NewExpDecaySampleFloat64 2 1 0).Clear 0).update (fun _ => 1) 1 5 (1/2)).bind
      (fun s1 => ExpDecaySampleFloat64.runOps (fun _ => 1) s1 []) = some rec1
    rw [hrec]
    rfl
  have hd := (c7_count_size_invariant (fun _ => 1)).2 (NewExpDecaySampleFloat64 2 1 0) 0
    [(1, 5, 1/2)] rec1 hmany
  refine ⟨hu.1, by rw [hu.2.1]; decide, rec1, hmany, ?_, hd.2⟩
  exact hd.1

/-- C1: for a non-empty collection of size n, `Percentiles` computes every
requested percentile over a single sorted arrangement shared by all
requests: `pos = p * (n+1)`; if `pos < 1` the result is the minimum element,
if `pos ≥ n` the maximum element, and otherwise
`lower + (pos - floor pos) * (upper - lower)` with `lower`, `upper` the
elements at 1-based ranks `floor pos` and `floor pos + 1`; `Percentile(p)`
is the singleton-request instance. -/
theorem c1_percentile_interpolation (values ps : List ℚ) (p : ℚ) (h : values ≠ []) :
    ∃ sorted : List ℚ,
      List.Perm sorted values ∧ List.Sorted (· ≤ ·) sorted ∧
      (SamplePercentilesFloat64 values ps).1 = ps.map (fun q =>
        if q * ((values.length : ℚ) + 1) < 1 then sorted.getD 0 0
        else if (values.length : ℚ) ≤ q * ((values.length : ℚ) + 1) then
          sorted.getD (values.length - 1) 0
        else
          sorted.getD ((⌊q * ((values.length : ℚ) + 1)⌋).toNat - 1) 0 +
            (q * ((values.length : ℚ) + 1) - ⌊q * ((values.length : ℚ) + 1)⌋) *
              (sorted.getD (⌊q * ((values.length : ℚ) + 1)⌋).toNat 0 -
                sorted.getD ((⌊q * ((values.length : ℚ) + 1)⌋).toNat - 1) 0)) ∧
      (sorted.getD 0 0 ∈ values ∧ ∀ x ∈ values, sorted.getD 0 0 ≤ x) ∧
      (sorted.getD (values.length - 1) 0 ∈ values ∧
        ∀ x ∈ values, x ≤ sorted.getD (values.length - 1) 0) ∧
      (SamplePercentileFloat64 values p).1 = ((SamplePercentilesFloat64 values [p]).1).getD 0 0 := by
  have hlen : 0 < values.length := List.length_pos.mpr h
  set sorted := values.insertionSort (· ≤ ·) with hsorted
  have hperm : List.Perm sorted values := List.perm_insertionSort _ _
  have hsort : List.Sorted (· ≤ ·) sorted := List.sorted_insertionSort _ _
  have hlen2 : sorted.length = values.length := hperm.length_eq
  have hne : sorted ≠ [] := by
    intro hx
    rw [hx] at hlen2
    simp at hlen2
    omega
  refine ⟨sorted, hperm, hsort, ?_, ⟨?_, ?_⟩, ⟨?_, ?_⟩, rfl⟩
  · simp only [SamplePercentilesFloat64]
    rw [if_pos hlen]
  · exact (hperm.mem_iff).mp (getD_zero_mem sorted hne)
  · intro x hx
    exact sorted_getD_zero_le sorted hsort x ((hperm.mem_iff).mpr hx)
  · rw [← hlen2]
    exact (hperm.mem_iff).mp (getD_last_mem sorted hne)
  · intro x hx
    rw [← hlen2]
    exact le_sorted_getD_last sorted hsort x ((hperm.mem_iff).mpr hx)

/-- C1 witness: the interpolation law at a concrete non-empty input. -/
theorem c1_percentile_interpolation_witness :
    ([3, 1, 2] : List ℚ) ≠ [] ∧
    ∃ sorted : List ℚ,
      List.Perm sorted [3, 1, 2] ∧ List.Sorted (· ≤ ·) sorted ∧
      (SamplePercentilesFloat64 [3, 1, 2] [(1 : ℚ)/2]).1 = [(1 : ℚ)/2].map (fun q =>
        if q * (((3 : ℕ) : ℚ) + 1) < 1 then sorted.getD 0 0
        else if ((3 : ℕ) : ℚ) ≤ q * (((3 : ℕ) : ℚ) + 1) then sorted.getD (3 - 1) 0
        else
          sorted.getD ((⌊q * (((3 : ℕ) : ℚ) + 1)⌋).toNat - 1) 0 +
            (q * (((3 : ℕ) : ℚ) + 1) - ⌊q * (((3 : ℕ) : ℚ) + 1)⌋) *
              (sorted.getD (⌊q * (((3 : ℕ) : ℚ) + 1)⌋).toNat 0 -
                sorted.getD ((⌊q * (((3 : ℕ) : ℚ) + 1)⌋).toNat - 1) 0)) := by
  have h := c1_percentile_interpolation [3, 1, 2] [(1 : ℚ)/2] ((1 : ℚ)/2) (by decide)
  obtain ⟨sorted, h1, h2, h3, -, -, -⟩ := h
  exact ⟨by decide, sorted, h1, h2, h3⟩

/-- C3: an update at time `t` strictly after the rescale deadline `t1`
rescales: with `vs1` the heap right after the eviction pop (when full) and
the push of the new item, the update succeeds and produces a state with
`t0 = t`, `t1 = t0 + rescaleThreshold`, whose heap is a permutation of `vs1`
with every priority multiplied by `exp(-alpha * (t - oldT0))`; the multiset
of retained values is unchanged by the rescale, and with the factor positive
the relative ordering of priorities is preserved. -/
theorem c3_rescale (rexp : ℚ → ℚ) (s : ExpDecaySampleFloat64) (t v u : ℚ)
    (ht : s.t1 < t)
    (hpopsafe : s.values.length = s.reservoirSize → s.values ≠ [])
    (hf : 0 < rexp (-s.alpha * (t - s.t0))) :
    ∃ (d1 : ExpDecaySampleFloat64) (vs1 : List EDItem),
      s.update rexp t v u = some d1 ∧
      ((s.values.length = s.reservoirSize →
        ∃ rest, heapPop s.values = some (s.values.getD 0 default, rest) ∧
          vs1 = heapPush rest { k := rexp ((t - s.t0) * s.alpha) / u, v := v }) ∧
       (s.values.length ≠ s.reservoirSize →
        vs1 = heapPush s.values { k := rexp ((t - s.t0) * s.alpha) / u, v := v })) ∧
      d1.t0 = t ∧
      d1.t1 = t + rescaleThreshold ∧
      d1.t1 = d1.t0 + rescaleThreshold ∧
      d1.count = s.count + 1 ∧
      List.Perm d1.values
        (vs1.map (fun it => { k := it.k * rexp (-s.alpha * (t - s.t0)), v := it.v })) ∧
      List.Perm (d1.values.map (fun it => it.v)) (vs1.map (fun it => it.v)) ∧
      (∀ a ∈ vs1, ∀ b ∈ vs1,
        (a.k ≤ b.k ↔
          a.k * rexp (-s.alpha * (t - s.t0)) ≤ b.k * rexp (-s.alpha * (t - s.t0))) ∧
        (a.k < b.k ↔
          a.k * rexp (-s.alpha * (t - s.t0)) < b.k * rexp (-s.alpha * (t - s.t0)))) := by
  have hmain : ∀ vs : List EDItem,
      (if s.values.length = s.reservoirSize
       then (heapPop s.values).map (fun pr => pr.2) else some s.values) = some vs →
      ∃ d1, s.update rexp t v u = some d1 ∧
        d1.t0 = t ∧ d1.t1 = t + rescaleThreshold ∧ d1.count = s.count + 1 ∧
        d1.values = (heapPush vs { k := rexp ((t - s.t0) * s.alpha) / u, v := v }).foldl
          (fun acc it => heapPush acc { k := it.k * rexp (-s.alpha * (t - s.t0)), v := it.v }) [] := by
    intro vs hvs
    rw [update_eq_some rexp s t v u vs hvs, if_pos ht]
    exact ⟨_, rfl, rfl, rfl, rfl, rfl⟩
  have hfinish : ∀ (d1 : ExpDecaySampleFloat64) (vs1 : List EDItem),
      d1.values = vs1.foldl
        (fun acc it => heapPush acc { k := it.k * rexp (-s.alpha * (t - s.t0)), v := it.v }) [] →
      List.Perm d1.values
        (vs1.map (fun it => { k := it.k * rexp (-s.alpha * (t - s.t0)), v := it.v })) ∧
      List.Perm (d1.values.map (fun it => it.v)) (vs1.map (fun it => it.v)) := by
    intro d1 vs1 hval
    have hp : List.Perm d1.values
        (vs1.map (fun it => { k := it.k * rexp (-s.alpha * (t - s.t0)), v := it.v })) := by
      rw [hval]
      simpa using foldl_rescale_perm rexp s.alpha s.t0 t vs1 []
    refine ⟨hp, ?_⟩
    have hp2 := hp.map (fun it => it.v)
    rw [List.map_map] at hp2
    exact hp2
  have horder : ∀ (vs1 : List EDItem), ∀ a ∈ vs1, ∀ b ∈ vs1,
      (a.k ≤ b.k ↔
        a.k * rexp (-s.alpha * (t - s.t0)) ≤ b.k * rexp (-s.alpha * (t - s.t0))) ∧
      (a.k < b.k ↔
        a.k * rexp (-s.alpha * (t - s.t0)) < b.k * rexp (-s.alpha * (t - s.t0))) := by
    intro vs1 a _ b _
    exact ⟨(mul_le_mul_right hf).symm, (mul_lt_mul_right hf).symm⟩
  by_cases hfull : s.values.length = s.reservoirSize
  · obtain ⟨rest, hpop, -, -, -⟩ := heapPop_spec s.values (hpopsafe hfull)
    have hvs : (if s.values.length = s.reservoirSize
        then (heapPop s.values).map (fun pr => pr.2) else some s.values) = some rest := by
      rw [if_pos hfull, hpop]
      rfl
    obtain ⟨d1, hup, h0, h1, hc, hval⟩ := hmain rest hvs
    obtain ⟨hpm, hvm⟩ := hfinish d1 _ hval
    exact ⟨d1, heapPush rest { k := rexp ((t - s.t0) * s.alpha) / u, v := v }, hup,
      ⟨fun _ => ⟨rest, hpop, rfl⟩, fun hnf => absurd hfull hnf⟩,
      h0, h1, by rw [h0, h1], hc, hpm, hvm, horder _⟩
  · have hvs : (if s.values.length = s.reservoirSize
        then (heapPop s.values).map (fun pr => pr.2) else some s.values) = some s.values := by
      rw [if_neg hfull]
    obtain ⟨d1, hup, h0, h1, hc, hval⟩ := hmain s.values hvs
    obtain ⟨hpm, hvm⟩ := hfinish d1 _ hval
    exact ⟨d1, heapPush s.values { k := rexp ((t - s.t0) * s.alpha) / u, v := v }, hup,
      ⟨fun hfl => absurd hfl hfull, fun _ => rfl⟩,
      h0, h1, by rw [h0, h1], hc, hpm, hvm, horder _⟩

/-- C3 witness: forcing a rescale at a concrete time past the deadline. -/
theorem c3_rescale_witness :
    (NewExpDecaySampleFloat64 2 1 0).t1 < 4000 ∧
    ∃ (d1 : ExpDecaySampleFloat64) (vs1 : List EDItem),
      (NewExpDecaySampleFloat64 2 1 0).update (fun _ => 1) 4000 8 (1/5) = some d1 ∧
      d1.t0 = 4000 ∧ d1.t1 = 4000 + rescaleThreshold ∧
      List.Perm (d1.values.map (fun it => it.v)) (vs1.map (fun it => it.v)) := by
  have hlt : (NewExpDecaySampleFloat64 2 1 0).t1 < 4000 := by
    norm_num [NewExpDecaySampleFloat64, rescaleThreshold]
  have h := c3_rescale (fun _ => 1) (NewExpDecaySampleFloat64 2 1 0) 4000 8 (1/5)
    hlt (by intro hx; exact absurd hx (by decide)) (by norm_num)
  obtain ⟨d1, vs1, hup, -, h0, h1, -, -, -, hvm, -⟩ := h
  exact ⟨hlt, d1, vs1, hup, h0, h1, hvm⟩

/-- C6: snapshot isolation.  For both samplers, the snapshot recorded at any
point of an operation sequence is exactly the `Snapshot` of the source state
at that moment, unaffected by any later `Update`/`Clear` operations; the
snapshot holds an independent copy whose `Count`, `Values` and every
statistic equal the source's data at snapshot time. -/
theorem c6_snapshot_isolation (rexp : ℚ → ℚ) :
    (∀ (s : UniformSampleFloat64) (ops1 ops2 : List UniformSnapOp),
      s.runWithSnaps (ops1 ++ UniformSnapOp.snapshot :: ops2) =
        (((s.runWithSnaps ops1).1.runWithSnaps ops2).1,
         (s.runWithSnaps ops1).2 ++ (s.runWithSnaps ops1).1.Snapshot ::
           ((s.runWithSnaps ops1).1.runWithSnaps ops2).2)) ∧
    (∀ src : UniformSampleFloat64,
      src.Snapshot.Count = src.count ∧ src.Snapshot.Values = src.values ∧
      src.Snapshot.Size = src.Size ∧
      src.Snapshot.Max = SampleMaxFloat64 src.values ∧
      src.Snapshot.Min = SampleMinFloat64 src.values ∧
      src.Snapshot.Mean = SampleMeanFloat64 src.values ∧
      src.Snapshot.Sum = SampleSumFloat64 src.values ∧
      src.Snapshot.Variance = SampleVarianceFloat64 src.values ∧
      src.Snapshot.StdDev = SampleStdDevFloat64 src.values ∧
      ∀ p, src.Snapshot.Percentile p = (SamplePercentileFloat64 src.values p).1) ∧
    (∀ (d d1 : ExpDecaySampleFloat64) (sn1 : List SampleSnapshotFloat64)
       (l1 l2 : List DecaySnapOp),
      d.runWithSnaps rexp l1 = some (d1, sn1) →
      d.runWithSnaps rexp (l1 ++ DecaySnapOp.snapshot :: l2) =
        (d1.runWithSnaps rexp l2).map
          (fun pr => (pr.1, sn1 ++ d1.Snapshot :: pr.2))) ∧
    (∀ dd : ExpDecaySampleFloat64,
      dd.Snapshot.Count = dd.count ∧ dd.Snapshot.Values = dd.Values ∧
      dd.Snapshot.Size = dd.Size ∧
      dd.Snapshot.Max = SampleMaxFloat64 dd.Values ∧
      dd.Snapshot.Min = SampleMinFloat64 dd.Values ∧
      dd.Snapshot.Mean = SampleMeanFloat64 dd.Values ∧
      dd.Snapshot.Sum = SampleSumFloat64 dd.Values ∧
      dd.Snapshot.Variance = SampleVarianceFloat64 dd.Values ∧
      dd.Snapshot.StdDev = SampleStdDevFloat64 dd.Values ∧
      ∀ p, dd.Snapshot.Percentile p = (SamplePercentileFloat64 dd.Values p).1) := by
  refine ⟨?_, ?_, ?_, ?_⟩
  · intro s ops1 ops2
    rw [runWithSnaps_append]
    rfl
  · intro src
    exact ⟨rfl, rfl, rfl, rfl, rfl, rfl, rfl, rfl, rfl, fun p => rfl⟩
  · intro d d1 sn1 l1 l2 hrun
    rw [decay_runWithSnaps_append rexp l1 d d1 sn1 (DecaySnapOp.snapshot :: l2) hrun]
    show (((d1.runWithSnaps rexp l2).map (fun pr => (pr.1, d1.Snapshot :: pr.2))).map
      (fun pr => (pr.1, sn1 ++ pr.2))) = _
    rw [Option.map_map]
    rfl
  · intro dd
    refine ⟨rfl, rfl, ?_, rfl, rfl, rfl, rfl, rfl, rfl, fun p => rfl⟩
    simp [SampleSnapshotFloat64.Size, ExpDecaySampleFloat64.Size,
      ExpDecaySampleFloat64.Snapshot]

/-- C6 witness: the decay conjunct applied with an empty prefix. -/
theorem c6_snapshot_isolation_witness :
    (NewExpDecaySampleFloat64 2 1 0).runWithSnaps (fun _ => 1) [] =
      some (NewExpDecaySampleFloat64 2 1 0, []) ∧
    (NewExpDecaySampleFloat64 2 1 0).runWithSnaps (fun _ => 1)
        ([] ++ DecaySnapOp.snapshot :: []) =
      ((NewExpDecaySampleFloat64 2 1 0).runWithSnaps (fun _ => 1) []).map
        (fun pr => (pr.1, [] ++ (NewExpDecaySampleFloat64 2 1 0).Snapshot :: pr.2)) :=
  ⟨rfl, (c6_snapshot_isolation (fun _ => 1)).2.2.1 (NewExpDecaySampleFloat64 2 1 0)
    (NewExpDecaySampleFloat64 2 1 0) [] [] [] rfl⟩
